import Mathlib

namespace LG4X

/-! Shallow embedding of the convolution engine of `src/Python/usrmodel.py`.
Arrays of floats become `List ℚ`; the exact rational arithmetic stands in for
IEEE doubles.  `np.convolve(a, v, mode='valid')` / `scipy.signal.convolve`
(valid mode) compute, for the full discrete convolution
`c n = ∑ k, a k * v (n - k)` (zero-extended), the slice where the shorter
array fully overlaps the longer one; both libraries swap their arguments when
the second is longer, so the valid output always has length
`max |a| |v| - min |a| |v| + 1`. -/

/-- Coefficient `n` of the full discrete convolution of `a` and `v`
(zero-extension outside the lists). -/
def fullCoeff (a v : List ℚ) (n : ℕ) : ℚ :=
  ∑ k ∈ Finset.range (n + 1), a.getD k 0 * v.getD (n - k) 0

/-- The full discrete convolution, of length `|a| + |v| - 1`. -/
def fullConv (a v : List ℚ) : List ℚ :=
  (List.range (a.length + v.length - 1)).map (fullCoeff a v)

/-- Valid-mode convolution as `np.convolve(·, ·, mode='valid')` computes it:
the full-overlap region, of length `max - min + 1`. -/
def validConv (a v : List ℚ) : List ℚ :=
  ((fullConv a v).drop (min a.length v.length - 1)).take
    (max a.length v.length - min a.length v.length + 1)

/-- Python slicing `l[i:]` for a possibly negative integer index `i`. -/
def pySliceFrom (l : List ℚ) (i : ℤ) : List ℚ :=
  if 0 ≤ i then l.drop i.toNat else l.drop ((l.length : ℤ) + i).toNat

/-- `convolve(data, kernel)` from `usrmodel.py` (lines 128-155): edge-padded
valid-mode convolution; `int((len(out) - min_num_pts) / 2)` truncates toward
zero, which is `Int.tdiv`. -/
def convolve (data kernel : List ℚ) : List ℚ :=
  let min_num_pts := min data.length kernel.length
  let padded_data :=
    List.replicate min_num_pts (data.headD 0) ++ data ++
      List.replicate min_num_pts (data.getLastD 0)
  let out := validConv padded_data kernel
  let n_start_data : ℤ := Int.tdiv ((out.length : ℤ) - (min_num_pts : ℤ)) 2
  (pySliceFrom out n_start_data).take min_num_pts

/-- Coefficient `n` of the full convolution as the FFT route computes it
(frequency-domain product = convolution with the roles of the two factors
exchanged in the defining sum). -/
def fullCoeffFFT (a v : List ℚ) (n : ℕ) : ℚ :=
  ∑ k ∈ Finset.range (n + 1), v.getD k 0 * a.getD (n - k) 0

def fullConvFFT (a v : List ℚ) : List ℚ :=
  (List.range (a.length + v.length - 1)).map (fullCoeffFFT a v)

def validConvFFT (a v : List ℚ) : List ℚ :=
  ((fullConvFFT a v).drop (min a.length v.length - 1)).take
    (max a.length v.length - min a.length v.length + 1)

/-- `fft_convolve(data, kernel)` from `usrmodel.py` (lines 158-190):
identical edge padding and slicing, convolution computed through the
convolution theorem (`scipy.signal.convolve(..., method="fft")`), which over
exact arithmetic yields the same full convolution. -/
def fft_convolve (data kernel : List ℚ) : List ℚ :=
  let min_num_pts := min data.length kernel.length
  let padded_data :=
    List.replicate min_num_pts (data.headD 0) ++ data ++
      List.replicate min_num_pts (data.getLastD 0)
  let out := validConvFFT padded_data kernel
  let n_start_data : ℤ := Int.tdiv ((out.length : ℤ) - (min_num_pts : ℤ)) 2
  (pySliceFrom out n_start_data).take min_num_pts

/-! Basic facts about the engine. -/

lemma length_fullConv (a v : List ℚ) :
    (fullConv a v).length = a.length + v.length - 1 := by
  simp [fullConv]

lemma length_validConv (a v : List ℚ) (ha : a ≠ []) (hv : v ≠ []) :
    (validConv a v).length = max a.length v.length - min a.length v.length + 1 := by
  have ha' : 0 < a.length := List.length_pos.mpr ha
  have hv' : 0 < v.length := List.length_pos.mpr hv
  simp only [validConv, List.length_take, List.length_drop, length_fullConv]
  omega

lemma fullCoeffFFT_eq (a v : List ℚ) (n : ℕ) : fullCoeffFFT a v n = fullCoeff a v n := by
  unfold fullCoeff fullCoeffFFT
  rw [← Finset.sum_range_reflect (fun k => a.getD k 0 * v.getD (n - k) 0) (n + 1)]
  refine Finset.sum_congr rfl fun k hk => ?_
  have hk' : k < n + 1 := Finset.mem_range.mp hk
  rw [show n + 1 - 1 - k = n - k by omega, show n - (n - k) = k by omega]
  exact mul_comm _ _

lemma fullConvFFT_eq (a v : List ℚ) : fullConvFFT a v = fullConv a v := by
  unfold fullConvFFT fullConv
  rw [funext (fullCoeffFFT_eq a v)]

lemma validConvFFT_eq (a v : List ℚ) : validConvFFT a v = validConv a v := by
  unfold validConvFFT validConv
  rw [fullConvFFT_eq]

lemma fft_convolve_eq (data kernel : List ℚ) :
    fft_convolve data kernel = convolve data kernel := by
  unfold fft_convolve convolve
  simp only [validConvFFT_eq]

lemma tdiv_natCast (m n : ℕ) : Int.tdiv (m : ℤ) (n : ℤ) = ((m / n : ℕ) : ℤ) := rfl

lemma length_convolve (data kernel : List ℚ) (hd : data ≠ []) (hk : kernel ≠ [])
    (h : kernel.length ≤ 2 * data.length + 1 ∨ 4 * data.length - 1 ≤ kernel.length) :
    (convolve data kernel).length = min data.length kernel.length := by
  have hN1 : 1 ≤ data.length := List.length_pos.mpr hd
  have hM1 : 1 ≤ kernel.length := List.length_pos.mpr hk
  simp only [convolve]
  set L := min data.length kernel.length with hL
  set pl := List.replicate L (data.headD 0) ++ data ++
    List.replicate L (data.getLastD 0) with hpl
  have hplen : pl.length = data.length + 2 * L := by
    rw [hpl]
    simp only [List.length_append, List.length_replicate]
    omega
  have hplne : pl ≠ [] := List.length_pos.mp (by omega)
  have hout : (validConv pl kernel).length =
      max pl.length kernel.length - min pl.length kernel.length + 1 :=
    length_validConv pl kernel hplne hk
  have hOL : L ≤ (validConv pl kernel).length := by omega
  have hns : Int.tdiv (((validConv pl kernel).length : ℤ) - (L : ℤ)) 2 =
      ((((validConv pl kernel).length - L) / 2 : ℕ) : ℤ) := by
    rw [show (((validConv pl kernel).length : ℤ) - (L : ℤ)) =
        (((validConv pl kernel).length - L : ℕ) : ℤ) by omega]
    exact tdiv_natCast _ _
  rw [hns]
  simp only [pySliceFrom, Int.natCast_nonneg, if_pos, Int.toNat_natCast,
    List.length_take, List.length_drop]
  omega

/-- C1 (amended): for every non-empty `data` of length `N` and non-empty `kernel`
of length `M` satisfying `M ≤ 2*N + 1` or `M ≥ 4*N - 1` — in particular whenever
`M ≤ N`, and for the equal-length calls made by the composite lineshape
functions — both `convolve` and `fft_convolve` return a sequence of length
exactly `min N M`.  (For `2*N + 1 < M < 4*N - 1` the valid-mode convolution of
the `3*N`-long padded data with the kernel is shorter than `N` and the result is
shorter than `min N M`.) -/
theorem convolve_fft_length_min (data kernel : List ℚ) (hd : data ≠ []) (hk : kernel ≠ [])
    (h : kernel.length ≤ 2 * data.length + 1 ∨ 4 * data.length - 1 ≤ kernel.length) :
    (convolve data kernel).length = min data.length kernel.length ∧
    (fft_convolve data kernel).length = min data.length kernel.length := by
  rw [fft_convolve_eq, and_self]
  exact length_convolve data kernel hd hk h

/-- Witness for C1 (amended) at `data = [1, 2, 3]`, `kernel = [4, 5]`. -/
theorem convolve_fft_length_min_witness :
    (convolve [1, 2, 3] [4, 5]).length =
      min ([1, 2, 3] : List ℚ).length ([4, 5] : List ℚ).length ∧
    (fft_convolve [1, 2, 3] [4, 5]).length =
      min ([1, 2, 3] : List ℚ).length ([4, 5] : List ℚ).length :=
  convolve_fft_length_min [1, 2, 3] [4, 5] (by simp) (by simp) (Or.inl (by norm_num))

/-- C1 counterexample: at `data = [0, 0]` (length 2) and
`kernel = [0, 0, 0, 0, 0, 0]` (length 6) the engine returns a sequence of
length 1, not `min 2 6 = 2`: the padded data has length 6, the valid-mode
convolution has length 1, and the final slice cannot recover 2 samples. -/
theorem convolve_fft_length_min_counterexample :
    ¬ ((convolve [0, 0] [0, 0, 0, 0, 0, 0]).length =
         min ([0, 0] : List ℚ).length ([0, 0, 0, 0, 0, 0] : List ℚ).length ∧
       (fft_convolve [0, 0] [0, 0, 0, 0, 0, 0]).length =
         min ([0, 0] : List ℚ).length ([0, 0, 0, 0, 0, 0] : List ℚ).length) := by
  intro hc
  have h1 := hc.1
  have h : Int.tdiv 1 2 = 0 := by decide
  norm_num [convolve, validConv, fullConv, fullCoeff, pySliceFrom, List.range_succ,
    Finset.sum_range_succ, h] at h1

/-- C2: for every pair of non-empty equal-length sequences `data` and `kernel`,
`convolve` and `fft_convolve` produce equal results over exact arithmetic: the
frequency-domain product computes the same full discrete convolution, and the
padding and slicing on either path are identical. -/
theorem convolve_eq_fft_convolve (data kernel : List ℚ) (hd : data ≠ []) (hk : kernel ≠ [])
    (hlen : data.length = kernel.length) :
    convolve data kernel = fft_convolve data kernel :=
  (fft_convolve_eq data kernel).symm

/-- Witness for C2 at `data = [1, 2]`, `kernel = [3, 4]`. -/
theorem convolve_eq_fft_convolve_witness :
    convolve [1, 2] [3, 4] = fft_convolve [1, 2] [3, 4] :=
  convolve_eq_fft_convolve [1, 2] [3, 4] (by simp) (by simp) (by simp)

/-! C4 compares `convolve` with the spec's prose description of its algorithm,
so the description is transcribed as a second definition. -/

/-- The spec's reading of the valid-mode convolution: "only the region where
kernel and padded data fully overlap, producing an output of length
`len(padded) - len(kernel) + 1`" — empty when the kernel is longer than the
padded array, since then no full-overlap position exists. -/
def specValidConv (a v : List ℚ) : List ℚ :=
  ((fullConv a v).drop (v.length - 1)).take (((a.length : ℤ) - (v.length : ℤ) + 1).toNat)

/-- Python slicing `l[a:b]` for possibly negative integer bounds. -/
def pySlice (l : List ℚ) (a b : ℤ) : List ℚ :=
  let n : ℤ := l.length
  let a' := (if a < 0 then max (n + a) 0 else min a n).toNat
  let b' := (if b < 0 then max (n + b) 0 else min b n).toNat
  (l.take b').drop a'

/-- Transcription of the algorithm description in §4.2 of the spec (the wording
claim C4 quotes), to be compared with `convolve` as implemented: edge-extension
padding with `L` copies of `data[0]` and `data[-1]`, a valid convolution of
length `len(padded) - len(kernel) + 1`, `n_start = floor((len(out) - L) / 2)`
(`Int.fdiv` is the floor), and the returned slice `out[n_start : n_start + L]`. -/
def specConvolve (data kernel : List ℚ) : List ℚ :=
  let L := min data.length kernel.length
  let padded := List.replicate L (data.headD 0) ++ data ++
    List.replicate L (data.getLastD 0)
  let out := specValidConv padded kernel
  let n_start : ℤ := Int.fdiv ((out.length : ℤ) - (L : ℤ)) 2
  pySlice out n_start (n_start + L)

lemma fdiv_natCast (m n : ℕ) : Int.fdiv (m : ℤ) (n : ℤ) = ((m / n : ℕ) : ℤ) :=
  (Int.ofNat_fdiv m n).symm

lemma pySliceFrom_natCast (l : List ℚ) (s : ℕ) : pySliceFrom l (s : ℤ) = l.drop s := by
  simp [pySliceFrom]

lemma pySlice_natCast (l : List ℚ) (s m : ℕ) (h : s + m ≤ l.length) :
    pySlice l (s : ℤ) ((s : ℤ) + (m : ℤ)) = (l.drop s).take m := by
  simp only [pySlice]
  rw [if_neg (by omega : ¬ ((s : ℤ) < 0)),
    if_neg (by omega : ¬ ((s : ℤ) + (m : ℤ) < 0)),
    show (min (s : ℤ) (l.length : ℤ)).toNat = s by omega,
    show (min ((s : ℤ) + (m : ℤ)) (l.length : ℤ)).toNat = s + m by omega,
    List.drop_take]
  congr 1
  omega

/-- C4 (amended): the spec's step-by-step description of `convolve` is exact
whenever `len(kernel) ≤ 2*len(data) + 1` (in particular whenever
`len(kernel) ≤ len(data)` and for equal lengths): the padded array has length
`len(data) + 2L`, the valid convolution has length `len(padded) - len(kernel) + 1`,
`n_start = floor((len(out) - L)/2)` is then nonnegative (so the code's
truncating `int(... / 2)` is the floor), and the result is
`out[n_start : n_start + L]`.  For longer kernels the description breaks down:
the libraries swap the arguments of the valid convolution (its length is
`|len(padded) - len(kernel)| + 1`, not the negative `len(padded) - len(kernel) + 1`)
and truncation and floor differ on the then-negative `n_start`. -/
theorem convolve_spec_description (data kernel : List ℚ) (hd : data ≠ []) (hk : kernel ≠ [])
    (h : kernel.length ≤ 2 * data.length + 1) :
    convolve data kernel = specConvolve data kernel := by
  have hN1 : 1 ≤ data.length := List.length_pos.mpr hd
  have hM1 : 1 ≤ kernel.length := List.length_pos.mpr hk
  simp only [convolve, specConvolve]
  set L := min data.length kernel.length with hL
  set pl := List.replicate L (data.headD 0) ++ data ++
    List.replicate L (data.getLastD 0) with hpl
  have hplen : pl.length = data.length + 2 * L := by
    rw [hpl]
    simp only [List.length_append, List.length_replicate]
    omega
  have hplne : pl ≠ [] := List.length_pos.mp (by omega)
  have hvalid : specValidConv pl kernel = validConv pl kernel := by
    unfold specValidConv validConv
    rw [show min pl.length kernel.length - 1 = kernel.length - 1 by omega,
      show (((pl.length : ℤ) - (kernel.length : ℤ) + 1)).toNat =
        max pl.length kernel.length - min pl.length kernel.length + 1 by omega]
  rw [hvalid]
  have hout : (validConv pl kernel).length =
      max pl.length kernel.length - min pl.length kernel.length + 1 :=
    length_validConv pl kernel hplne hk
  have hOL : L ≤ (validConv pl kernel).length := by omega
  have hns : Int.tdiv (((validConv pl kernel).length : ℤ) - (L : ℤ)) 2 =
      ((((validConv pl kernel).length - L) / 2 : ℕ) : ℤ) := by
    rw [show (((validConv pl kernel).length : ℤ) - (L : ℤ)) =
        (((validConv pl kernel).length - L : ℕ) : ℤ) by omega]
    exact tdiv_natCast _ _
  have hfd : Int.fdiv (((validConv pl kernel).length : ℤ) - (L : ℤ)) 2 =
      ((((validConv pl kernel).length - L) / 2 : ℕ) : ℤ) := by
    rw [show (((validConv pl kernel).length : ℤ) - (L : ℤ)) =
        (((validConv pl kernel).length - L : ℕ) : ℤ) by omega]
    exact fdiv_natCast _ _
  rw [hns, hfd, pySliceFrom_natCast, pySlice_natCast _ _ _ (by omega)]

/-- Witness for C4 (amended) at `data = [1, 2]`, `kernel = [1, 1]`. -/
theorem convolve_spec_description_witness :
    convolve [1, 2] [1, 1] = specConvolve [1, 2] [1, 1] :=
  convolve_spec_description [1, 2] [1, 1] (by simp) (by simp) (by norm_num)

/-- C4 counterexample: at `data = [1]`, `kernel = [1, 1, 1, 1]` the code returns
`[3]` (the libraries swap the inputs of the valid convolution, which has length
2), while the spec's description yields an empty valid convolution (claimed
length `len(padded) - len(kernel) + 1 = 0`) and hence an empty result. -/
theorem convolve_spec_description_counterexample :
    convolve [1] [1, 1, 1, 1] ≠ specConvolve [1] [1, 1, 1, 1] := by
  have h : Int.tdiv 1 2 = 0 := by decide
  have h2 : Int.fdiv (-1) 2 = -1 := by decide
  norm_num [convolve, specConvolve, validConv, specValidConv, fullConv, fullCoeff,
    pySliceFrom, pySlice, List.range_succ, Finset.sum_range_succ, h, h2]

/-! Composite lineshape functions.  The lineshape primitives (`doniach`,
`gaussian`, `thermal_distribution` with `form='fermi'`) and `numpy.sqrt` come
from external libraries (`lmfit.lineshapes`, `numpy`), which the spec treats as
collaborators outside the core; they are abstracted as function parameters
`dfn t amplitude center sigma gamma`, `gfn t amplitude center sigma`,
`tfn t amplitude center kt`, all pointwise on the grid, and `sqrt2pi` stands
for the constant `sqrt(2*pi)`. -/

/-- Python `max(l)` over a nonempty list (0 as junk value on `[]`). -/
def pyMax : List ℚ → ℚ
  | [] => 0
  | [a] => a
  | a :: b :: t => max a (pyMax (b :: t))

/-- Python `min(l)` over a nonempty list (0 as junk value on `[]`). -/
def pyMin : List ℚ → ℚ
  | [] => 0
  | [a] => a
  | a :: b :: t => min a (pyMin (b :: t))

/-- `np.mean` of a list. -/
def npMean (l : List ℚ) : ℚ := l.sum / l.length

lemma pyMax_cons (a : ℚ) (l : List ℚ) (h : l ≠ []) : pyMax (a :: l) = max a (pyMax l) := by
  cases l with
  | nil => exact absurd rfl h
  | cons b t => rfl

lemma pyMin_cons (a : ℚ) (l : List ℚ) (h : l ≠ []) : pyMin (a :: l) = min a (pyMin l) := by
  cases l with
  | nil => exact absurd rfl h
  | cons b t => rfl

lemma pyMax_map_mono (f : ℚ → ℚ) (hf : Monotone f) {l : List ℚ} (h : l ≠ []) :
    pyMax (l.map f) = f (pyMax l) := by
  induction l with
  | nil => exact absurd rfl h
  | cons a t ih =>
    cases t with
    | nil => simp [pyMax]
    | cons b t2 =>
      have ht : (b :: t2) ≠ [] := by simp
      rw [List.map_cons, pyMax_cons a _ ht, pyMax_cons (f a) _ (by simp), ih ht,
        hf.map_max]

lemma sum_le_length_mul_pyMax (l : List ℚ) : l.sum ≤ (l.length : ℚ) * pyMax l := by
  induction l with
  | nil => simp
  | cons a t ih =>
    cases t with
    | nil => simp [pyMax]
    | cons b t2 =>
      rw [pyMax_cons a _ (by simp), List.sum_cons]
      have h1 : pyMax (b :: t2) ≤ max a (pyMax (b :: t2)) := le_max_right _ _
      have h2 : a ≤ max a (pyMax (b :: t2)) := le_max_left _ _
      have hlen : (0 : ℚ) ≤ ((b :: t2).length : ℚ) := by positivity
      calc a + (b :: t2).sum
          ≤ max a (pyMax (b :: t2)) +
              ((b :: t2).length : ℚ) * max a (pyMax (b :: t2)) :=
            add_le_add h2 (le_trans ih (mul_le_mul_of_nonneg_left h1 hlen))
        _ = ((a :: b :: t2).length : ℚ) * max a (pyMax (b :: t2)) := by
            push_cast [List.length_cons]
            ring

lemma length_mul_pyMin_le_sum (l : List ℚ) : (l.length : ℚ) * pyMin l ≤ l.sum := by
  induction l with
  | nil => simp
  | cons a t ih =>
    cases t with
    | nil => simp [pyMin]
    | cons b t2 =>
      rw [pyMin_cons a _ (by simp), List.sum_cons]
      have h1 : min a (pyMin (b :: t2)) ≤ pyMin (b :: t2) := min_le_right _ _
      have h2 : min a (pyMin (b :: t2)) ≤ a := min_le_left _ _
      have hlen : (0 : ℚ) ≤ ((b :: t2).length : ℚ) := by positivity
      calc ((a :: b :: t2).length : ℚ) * min a (pyMin (b :: t2))
          = min a (pyMin (b :: t2)) +
              ((b :: t2).length : ℚ) * min a (pyMin (b :: t2)) := by
            push_cast [List.length_cons]
            ring
        _ ≤ a + (b :: t2).sum :=
            add_le_add h2 (le_trans (mul_le_mul_of_nonneg_left h1 hlen) ih)

lemma pyMin_le_npMean {l : List ℚ} (h : l ≠ []) : pyMin l ≤ npMean l := by
  have hlen : (0 : ℚ) < l.length := by
    exact_mod_cast List.length_pos.mpr h
  rw [npMean, le_div_iff₀ hlen, mul_comm]
  exact length_mul_pyMin_le_sum l

lemma npMean_le_pyMax {l : List ℚ} (h : l ≠ []) : npMean l ≤ pyMax l := by
  have hlen : (0 : ℚ) < l.length := by
    exact_mod_cast List.length_pos.mpr h
  rw [npMean, div_le_iff₀ hlen, mul_comm]
  exact sum_le_length_mul_pyMax l

lemma pyMin_le_pyMax {l : List ℚ} (h : l ≠ []) : pyMin l ≤ pyMax l :=
  le_trans (pyMin_le_npMean h) (npMean_le_pyMax h)

/-- The convolution computed inside `singlett` (`usrmodel.py` lines 86-88):
the unit-amplitude doniach curve convolved with the
`1/(sqrt(2*pi)*gaussian_sigma)`-scaled unit-amplitude gaussian centred at
`mean(x)`. -/
def singlettConvTemp (dfn : ℚ → ℚ → ℚ → ℚ → ℚ → ℚ) (gfn : ℚ → ℚ → ℚ → ℚ → ℚ)
    (sqrt2pi : ℚ) (x : List ℚ) (sigma gamma gaussian_sigma center : ℚ) : List ℚ :=
  fft_convolve (x.map fun t => dfn t 1 center sigma gamma)
    (x.map fun t => 1 / (sqrt2pi * gaussian_sigma) * gfn t 1 (npMean x) gaussian_sigma)

/-- `singlett` (`usrmodel.py` lines 60-89): `amplitude * conv_temp / max(conv_temp)`. -/
def singlett (dfn : ℚ → ℚ → ℚ → ℚ → ℚ → ℚ) (gfn : ℚ → ℚ → ℚ → ℚ → ℚ)
    (sqrt2pi : ℚ) (x : List ℚ) (amplitude sigma gamma gaussian_sigma center : ℚ) :
    List ℚ :=
  (singlettConvTemp dfn gfn sqrt2pi x sigma gamma gaussian_sigma center).map
    fun v => amplitude * v /
      pyMax (singlettConvTemp dfn gfn sqrt2pi x sigma gamma gaussian_sigma center)

/-- The convolution computed inside `dublett` (`usrmodel.py` lines 53-56): the
sum of the unit-amplitude doniach at `center` and the `height_ratio`-amplitude
doniach at `center - soc` with width `fct_coster_kronig * sigma`, convolved
with the same scaled gaussian kernel. -/
def dublettConvTemp (dfn : ℚ → ℚ → ℚ → ℚ → ℚ → ℚ) (gfn : ℚ → ℚ → ℚ → ℚ → ℚ)
    (sqrt2pi : ℚ) (x : List ℚ)
    (sigma gamma gaussian_sigma center soc height_ratio fct_coster_kronig : ℚ) :
    List ℚ :=
  fft_convolve
    (x.map fun t => dfn t 1 center sigma gamma +
      dfn t height_ratio (center - soc) (fct_coster_kronig * sigma) gamma)
    (x.map fun t => 1 / (sqrt2pi * gaussian_sigma) * gfn t 1 (npMean x) gaussian_sigma)

/-- `dublett` (`usrmodel.py` lines 19-57). -/
def dublett (dfn : ℚ → ℚ → ℚ → ℚ → ℚ → ℚ) (gfn : ℚ → ℚ → ℚ → ℚ → ℚ)
    (sqrt2pi : ℚ) (x : List ℚ)
    (amplitude sigma gamma gaussian_sigma center soc height_ratio fct_coster_kronig : ℚ) :
    List ℚ :=
  (dublettConvTemp dfn gfn sqrt2pi x sigma gamma gaussian_sigma center soc
      height_ratio fct_coster_kronig).map
    fun v => amplitude * v /
      pyMax (dublettConvTemp dfn gfn sqrt2pi x sigma gamma gaussian_sigma center soc
        height_ratio fct_coster_kronig)

/-- The convolution computed inside `fermi_edge` (`usrmodel.py` lines 122-124):
the unit-amplitude fermi-form thermal distribution convolved with the
`1/(sqrt(2*pi)*sigma)`-scaled unit-amplitude gaussian centred at `mean(x)`. -/
def fermiConvTemp (tfn : ℚ → ℚ → ℚ → ℚ → ℚ) (gfn : ℚ → ℚ → ℚ → ℚ → ℚ)
    (sqrt2pi : ℚ) (x : List ℚ) (center kt sigma : ℚ) : List ℚ :=
  fft_convolve (x.map fun t => tfn t 1 center kt)
    (x.map fun t => 1 / (sqrt2pi * sigma) * gfn t 1 (npMean x) sigma)

/-- `fermi_edge` (`usrmodel.py` lines 95-125). -/
def fermi_edge (tfn : ℚ → ℚ → ℚ → ℚ → ℚ) (gfn : ℚ → ℚ → ℚ → ℚ → ℚ)
    (sqrt2pi : ℚ) (x : List ℚ) (amplitude center kt sigma : ℚ) : List ℚ :=
  (fermiConvTemp tfn gfn sqrt2pi x center kt sigma).map
    fun v => amplitude * v / pyMax (fermiConvTemp tfn gfn sqrt2pi x center kt sigma)

lemma pyMax_norm (A : ℚ) (l : List ℚ) (hA : 0 ≤ A) (hm : 0 < pyMax l) :
    pyMax (l.map fun v => A * v / pyMax l) = A := by
  have hne : l ≠ [] := by
    intro hnil
    rw [hnil] at hm
    exact absurd hm (by norm_num [pyMax])
  have hmono : Monotone fun v => A * v / pyMax l := by
    intro v w hvw
    have h1 : A * v ≤ A * w := mul_le_mul_of_nonneg_left hvw hA
    exact (div_le_div_iff_of_pos_right hm).mpr h1
  rw [pyMax_map_mono _ hmono hne, mul_div_assoc, div_self hm.ne', mul_one]

/-- C3: the amplitude-normalization invariant.  With the amplitude within its
declared bound (`amplitude ≥ 0`) and the convolved curve's maximum nonzero —
the actual doniach / gaussian / thermal primitives are nonnegative, so a
nonzero maximum is a positive maximum, which is how the hypothesis is stated —
the maximum of the sequence returned by each composite lineshape function
equals its amplitude parameter. -/
theorem composite_max_eq_amplitude
    (dfn : ℚ → ℚ → ℚ → ℚ → ℚ → ℚ) (gfn : ℚ → ℚ → ℚ → ℚ → ℚ) (tfn : ℚ → ℚ → ℚ → ℚ → ℚ)
    (sqrt2pi : ℚ) (x : List ℚ)
    (a1 s1 g1 gs1 c1 : ℚ) (a2 s2 g2 gs2 c2 soc hr fck : ℚ) (a3 c3 kt3 s3 : ℚ)
    (ha1 : 0 ≤ a1) (ha2 : 0 ≤ a2) (ha3 : 0 ≤ a3)
    (hm1 : 0 < pyMax (singlettConvTemp dfn gfn sqrt2pi x s1 g1 gs1 c1))
    (hm2 : 0 < pyMax (dublettConvTemp dfn gfn sqrt2pi x s2 g2 gs2 c2 soc hr fck))
    (hm3 : 0 < pyMax (fermiConvTemp tfn gfn sqrt2pi x c3 kt3 s3)) :
    pyMax (singlett dfn gfn sqrt2pi x a1 s1 g1 gs1 c1) = a1 ∧
    pyMax (dublett dfn gfn sqrt2pi x a2 s2 g2 gs2 c2 soc hr fck) = a2 ∧
    pyMax (fermi_edge tfn gfn sqrt2pi x a3 c3 kt3 s3) = a3 := by
  unfold singlett dublett fermi_edge
  exact ⟨pyMax_norm _ _ ha1 hm1, pyMax_norm _ _ ha2 hm2, pyMax_norm _ _ ha3 hm3⟩

/-- Witness for C3 with constant primitives on a two-point grid. -/
theorem composite_max_eq_amplitude_witness :
    pyMax (singlett (fun _ _ _ _ _ => 1) (fun _ _ _ _ => 1) 1 [0, 1] 5 1 1 1 0) = 5 ∧
    pyMax (dublett (fun _ _ _ _ _ => 1) (fun _ _ _ _ => 1) 1 [0, 1] 6 1 1 1 0 1 1 1) = 6 ∧
    pyMax (fermi_edge (fun _ _ _ _ => 1) (fun _ _ _ _ => 1) 1 [0, 1] 7 0 1 1) = 7 :=
  composite_max_eq_amplitude (fun _ _ _ _ _ => 1) (fun _ _ _ _ => 1) (fun _ _ _ _ => 1)
    1 [0, 1] 5 1 1 1 0 6 1 1 1 0 1 1 1 7 0 1 1
    (by norm_num) (by norm_num) (by norm_num)
    (by
      have h : Int.tdiv 3 2 = 1 := by decide
      norm_num [singlettConvTemp, fft_convolve, validConvFFT, fullConvFFT, fullCoeffFFT,
        pySliceFrom, npMean, pyMax, List.range_succ, Finset.sum_range_succ, max_def, h,
        List.replicate_succ, List.getElem_cons_zero, List.getElem_cons_succ,
        List.cons_append, List.nil_append])
    (by
      have h : Int.tdiv 3 2 = 1 := by decide
      norm_num [dublettConvTemp, fft_convolve, validConvFFT, fullConvFFT, fullCoeffFFT,
        pySliceFrom, npMean, pyMax, List.range_succ, Finset.sum_range_succ, max_def, h,
        List.replicate_succ, List.getElem_cons_zero, List.getElem_cons_succ,
        List.cons_append, List.nil_append])
    (by
      have h : Int.tdiv 3 2 = 1 := by decide
      norm_num [fermiConvTemp, fft_convolve, validConvFFT, fullConvFFT, fullCoeffFFT,
        pySliceFrom, npMean, pyMax, List.range_succ, Finset.sum_range_succ, max_def, h,
        List.replicate_succ, List.getElem_cons_zero, List.getElem_cons_succ,
        List.cons_append, List.nil_append])

/-- C6: with `height_ratio = 0` the doublet equals the singlet with matching
shared parameters — for any asymmetric primitive that vanishes at amplitude 0,
as the lmfit doniach does (it is linear in its amplitude argument). -/
theorem dublett_height_ratio_zero_eq_singlett
    (dfn : ℚ → ℚ → ℚ → ℚ → ℚ → ℚ) (gfn : ℚ → ℚ → ℚ → ℚ → ℚ) (sqrt2pi : ℚ)
    (x : List ℚ) (amplitude sigma gamma gaussian_sigma center soc fck : ℚ)
    (h0 : ∀ t c s g, dfn t 0 c s g = 0) :
    dublett dfn gfn sqrt2pi x amplitude sigma gamma gaussian_sigma center soc 0 fck =
      singlett dfn gfn sqrt2pi x amplitude sigma gamma gaussian_sigma center := by
  have hconv : dublettConvTemp dfn gfn sqrt2pi x sigma gamma gaussian_sigma center
      soc 0 fck = singlettConvTemp dfn gfn sqrt2pi x sigma gamma gaussian_sigma center := by
    unfold dublettConvTemp singlettConvTemp
    simp only [h0, add_zero]
  unfold dublett singlett
  rw [hconv]

/-! Lemmas for C10: the convolution is linear in the kernel, `pyMax` commutes
with rescaling by a positive factor, and the normalization step makes the
composite curves homogeneous in `amplitude` and invariant under a positive
rescaling of the kernel. -/

lemma getD_map_mul (k : ℚ) (v : List ℚ) (n : ℕ) :
    (v.map fun t => k * t).getD n 0 = k * v.getD n 0 := by
  induction v generalizing n with
  | nil => simp
  | cons a t ih =>
    cases n with
    | zero => simp
    | succ m => simpa using ih m

lemma fullCoeffFFT_smul (a v : List ℚ) (k : ℚ) (n : ℕ) :
    fullCoeffFFT a (v.map fun t => k * t) n = k * fullCoeffFFT a v n := by
  unfold fullCoeffFFT
  rw [Finset.mul_sum]
  refine Finset.sum_congr rfl fun j _ => ?_
  rw [getD_map_mul]
  ring

lemma fullConvFFT_smul (a v : List ℚ) (k : ℚ) :
    fullConvFFT a (v.map fun t => k * t) = (fullConvFFT a v).map fun t => k * t := by
  unfold fullConvFFT
  rw [List.length_map, List.map_map]
  refine List.map_eq_map_iff.mpr fun n _ => ?_
  simp only [Function.comp_apply]
  exact fullCoeffFFT_smul a v k n

lemma validConvFFT_smul (a v : List ℚ) (k : ℚ) :
    validConvFFT a (v.map fun t => k * t) = (validConvFFT a v).map fun t => k * t := by
  unfold validConvFFT
  rw [fullConvFFT_smul, List.length_map, List.map_take, List.map_drop]

lemma pySliceFrom_map (f : ℚ → ℚ) (l : List ℚ) (i : ℤ) :
    pySliceFrom (l.map f) i = (pySliceFrom l i).map f := by
  simp only [pySliceFrom, List.length_map]
  split <;> rw [List.map_drop]

lemma fft_convolve_smul_kernel (d v : List ℚ) (k : ℚ) :
    fft_convolve d (v.map fun t => k * t) = (fft_convolve d v).map fun t => k * t := by
  simp only [fft_convolve, List.length_map, validConvFFT_smul, pySliceFrom_map,
    List.map_take]

lemma singlettConvTemp_smul_gfn (dfn : ℚ → ℚ → ℚ → ℚ → ℚ → ℚ)
    (gfn : ℚ → ℚ → ℚ → ℚ → ℚ) (sqrt2pi k : ℚ) (x : List ℚ) (s g gs ce : ℚ) :
    singlettConvTemp dfn (fun t a c s => k * gfn t a c s) sqrt2pi x s g gs ce =
      (singlettConvTemp dfn gfn sqrt2pi x s g gs ce).map fun t => k * t := by
  unfold singlettConvTemp
  rw [← fft_convolve_smul_kernel]
  congr 1
  rw [List.map_map]
  exact List.map_eq_map_iff.mpr fun t _ => by simp only [Function.comp_apply]; ring

lemma dublettConvTemp_smul_gfn (dfn : ℚ → ℚ → ℚ → ℚ → ℚ → ℚ)
    (gfn : ℚ → ℚ → ℚ → ℚ → ℚ) (sqrt2pi k : ℚ) (x : List ℚ)
    (s g gs ce soc hr fck : ℚ) :
    dublettConvTemp dfn (fun t a c s => k * gfn t a c s) sqrt2pi x s g gs ce soc hr fck =
      (dublettConvTemp dfn gfn sqrt2pi x s g gs ce soc hr fck).map fun t => k * t := by
  unfold dublettConvTemp
  rw [← fft_convolve_smul_kernel]
  congr 1
  rw [List.map_map]
  exact List.map_eq_map_iff.mpr fun t _ => by simp only [Function.comp_apply]; ring

lemma fermiConvTemp_smul_gfn (tfn : ℚ → ℚ → ℚ → ℚ → ℚ)
    (gfn : ℚ → ℚ → ℚ → ℚ → ℚ) (sqrt2pi k : ℚ) (x : List ℚ) (ce kt s : ℚ) :
    fermiConvTemp tfn (fun t a c s => k * gfn t a c s) sqrt2pi x ce kt s =
      (fermiConvTemp tfn gfn sqrt2pi x ce kt s).map fun t => k * t := by
  unfold fermiConvTemp
  rw [← fft_convolve_smul_kernel]
  congr 1
  rw [List.map_map]
  exact List.map_eq_map_iff.mpr fun t _ => by simp only [Function.comp_apply]; ring

lemma map_norm_smul (c A : ℚ) (l : List ℚ) :
    (l.map fun v => c * A * v / pyMax l) =
      (l.map fun v => A * v / pyMax l).map fun v => c * v := by
  rw [List.map_map]
  exact List.map_eq_map_iff.mpr fun v _ => by simp only [Function.comp_apply]; ring

lemma norm_map_smul_inv (A k : ℚ) (hk : 0 < k) (l : List ℚ) :
    ((l.map fun t => k * t).map fun v => A * v / pyMax (l.map fun t => k * t)) =
      l.map fun v => A * v / pyMax l := by
  by_cases hne : l = []
  · subst hne
    simp
  · have hmax : pyMax (l.map fun t => k * t) = k * pyMax l :=
      pyMax_map_mono _ (fun v w hvw => mul_le_mul_of_nonneg_left hvw hk.le) hne
    rw [hmax, List.map_map]
    refine List.map_eq_map_iff.mpr fun v _ => ?_
    simp only [Function.comp_apply]
    by_cases hm : pyMax l = 0
    · simp [hm]
    · rw [show A * (k * v) = k * (A * v) by ring, mul_div_mul_left _ _ hk.ne']

/-- C10: each composite lineshape function is homogeneous in its amplitude
parameter (`singlett(x; c*amplitude, ...) = c * singlett(x; amplitude, ...)`
pointwise, and likewise for the doublet and the fermi edge), and its output is
unchanged when the gaussian kernel primitive is multiplied by any positive
scalar `k` — the kernel prefactor cancels in the `amplitude * conv / max(conv)`
normalization. -/
theorem composite_homogeneity
    (dfn : ℚ → ℚ → ℚ → ℚ → ℚ → ℚ) (gfn : ℚ → ℚ → ℚ → ℚ → ℚ) (tfn : ℚ → ℚ → ℚ → ℚ → ℚ)
    (sqrt2pi : ℚ) (x : List ℚ) (c k : ℚ)
    (a1 s1 g1 gs1 c1 : ℚ) (a2 s2 g2 gs2 c2 soc hr fck : ℚ) (a3 c3 kt3 s3 : ℚ)
    (hc : 0 < c) (hk : 0 < k)
    (hm1 : pyMax (singlettConvTemp dfn gfn sqrt2pi x s1 g1 gs1 c1) ≠ 0)
    (hm2 : pyMax (dublettConvTemp dfn gfn sqrt2pi x s2 g2 gs2 c2 soc hr fck) ≠ 0)
    (hm3 : pyMax (fermiConvTemp tfn gfn sqrt2pi x c3 kt3 s3) ≠ 0) :
    singlett dfn gfn sqrt2pi x (c * a1) s1 g1 gs1 c1 =
      (singlett dfn gfn sqrt2pi x a1 s1 g1 gs1 c1).map (fun v => c * v) ∧
    dublett dfn gfn sqrt2pi x (c * a2) s2 g2 gs2 c2 soc hr fck =
      (dublett dfn gfn sqrt2pi x a2 s2 g2 gs2 c2 soc hr fck).map (fun v => c * v) ∧
    fermi_edge tfn gfn sqrt2pi x (c * a3) c3 kt3 s3 =
      (fermi_edge tfn gfn sqrt2pi x a3 c3 kt3 s3).map (fun v => c * v) ∧
    singlett dfn (fun t a ce s => k * gfn t a ce s) sqrt2pi x a1 s1 g1 gs1 c1 =
      singlett dfn gfn sqrt2pi x a1 s1 g1 gs1 c1 ∧
    dublett dfn (fun t a ce s => k * gfn t a ce s) sqrt2pi x a2 s2 g2 gs2 c2 soc hr fck =
      dublett dfn gfn sqrt2pi x a2 s2 g2 gs2 c2 soc hr fck ∧
    fermi_edge tfn (fun t a ce s => k * gfn t a ce s) sqrt2pi x a3 c3 kt3 s3 =
      fermi_edge tfn gfn sqrt2pi x a3 c3 kt3 s3 := by
  refine ⟨?_, ?_, ?_, ?_, ?_, ?_⟩
  · unfold singlett
    exact map_norm_smul c a1 _
  · unfold dublett
    exact map_norm_smul c a2 _
  · unfold fermi_edge
    exact map_norm_smul c a3 _
  · unfold singlett
    rw [singlettConvTemp_smul_gfn]
    exact norm_map_smul_inv a1 k hk _
  · unfold dublett
    rw [dublettConvTemp_smul_gfn]
    exact norm_map_smul_inv a2 k hk _
  · unfold fermi_edge
    rw [fermiConvTemp_smul_gfn]
    exact norm_map_smul_inv a3 k hk _

/-- Witness for C10 with constant primitives on a two-point grid, `c = 2`, `k = 3`. -/
theorem composite_homogeneity_witness :
    singlett (fun _ _ _ _ _ => 1) (fun _ _ _ _ => 1) 1 [0, 1] (2 * 5) 1 1 1 0 =
      (singlett (fun _ _ _ _ _ => 1) (fun _ _ _ _ => 1) 1 [0, 1] 5 1 1 1 0).map
        (fun v => 2 * v) ∧
    dublett (fun _ _ _ _ _ => 1) (fun _ _ _ _ => 1) 1 [0, 1] (2 * 6) 1 1 1 0 1 1 1 =
      (dublett (fun _ _ _ _ _ => 1) (fun _ _ _ _ => 1) 1 [0, 1] 6 1 1 1 0 1 1 1).map
        (fun v => 2 * v) ∧
    fermi_edge (fun _ _ _ _ => 1) (fun _ _ _ _ => 1) 1 [0, 1] (2 * 7) 0 1 1 =
      (fermi_edge (fun _ _ _ _ => 1) (fun _ _ _ _ => 1) 1 [0, 1] 7 0 1 1).map
        (fun v => 2 * v) ∧
    singlett (fun _ _ _ _ _ => 1) (fun t a ce s => 3 * (fun _ _ _ _ => (1 : ℚ)) t a ce s)
        1 [0, 1] 5 1 1 1 0 =
      singlett (fun _ _ _ _ _ => 1) (fun _ _ _ _ => 1) 1 [0, 1] 5 1 1 1 0 ∧
    dublett (fun _ _ _ _ _ => 1) (fun t a ce s => 3 * (fun _ _ _ _ => (1 : ℚ)) t a ce s)
        1 [0, 1] 6 1 1 1 0 1 1 1 =
      dublett (fun _ _ _ _ _ => 1) (fun _ _ _ _ => 1) 1 [0, 1] 6 1 1 1 0 1 1 1 ∧
    fermi_edge (fun _ _ _ _ => 1) (fun t a ce s => 3 * (fun _ _ _ _ => (1 : ℚ)) t a ce s)
        1 [0, 1] 7 0 1 1 =
      fermi_edge (fun _ _ _ _ => 1) (fun _ _ _ _ => 1) 1 [0, 1] 7 0 1 1 :=
  composite_homogeneity (fun _ _ _ _ _ => 1) (fun _ _ _ _ => 1) (fun _ _ _ _ => 1)
    1 [0, 1] 2 3 5 1 1 1 0 6 1 1 1 0 1 1 1 7 0 1 1
    (by norm_num) (by norm_num)
    (by
      have h : Int.tdiv 3 2 = 1 := by decide
      norm_num [singlettConvTemp, fft_convolve, validConvFFT, fullConvFFT, fullCoeffFFT,
        pySliceFrom, npMean, pyMax, List.range_succ, Finset.sum_range_succ, max_def, h,
        List.replicate_succ, List.getElem_cons_zero, List.getElem_cons_succ,
        List.cons_append, List.nil_append])
    (by
      have h : Int.tdiv 3 2 = 1 := by decide
      norm_num [dublettConvTemp, fft_convolve, validConvFFT, fullConvFFT, fullCoeffFFT,
        pySliceFrom, npMean, pyMax, List.range_succ, Finset.sum_range_succ, max_def, h,
        List.replicate_succ, List.getElem_cons_zero, List.getElem_cons_succ,
        List.cons_append, List.nil_append])
    (by
      have h : Int.tdiv 3 2 = 1 := by decide
      norm_num [fermiConvTemp, fft_convolve, validConvFFT, fullConvFFT, fullCoeffFFT,
        pySliceFrom, npMean, pyMax, List.range_succ, Finset.sum_range_succ, max_def, h,
        List.replicate_succ, List.getElem_cons_zero, List.getElem_cons_succ,
        List.cons_append, List.nil_append])

/-- Witness for C6 with an amplitude-linear primitive on a two-point grid. -/
theorem dublett_height_ratio_zero_eq_singlett_witness :
    dublett (fun _ a _ _ _ => a) (fun _ a _ _ => a) 1 [0, 1] 5 1 1 1 0 7 0 1 =
      singlett (fun _ a _ _ _ => a) (fun _ a _ _ => a) 1 [0, 1] 5 1 1 1 0 :=
  dublett_height_ratio_zero_eq_singlett (fun _ a _ _ _ => a) (fun _ a _ _ => a) 1
    [0, 1] 5 1 1 1 0 7 1 (fun _ _ _ _ => rfl)

/-! Derived-parameter expressions registered by the models' param-hint tables
(`usrmodel.py` lines 201-217 and 244-272), compiled to functions as §9 of the
spec prescribes. -/

/-- The expression string `2*gaussian_sigma*1.1774` (line 207). -/
def gaussian_fwhm (gaussian_sigma : ℚ) : ℚ := 2 * gaussian_sigma * 1.1774

/-- The expression string `sigma*(2+gamma*2.5135+(gamma*3.6398)**4)` (line 209). -/
def lorentzian_fwhm (sigma gamma : ℚ) : ℚ :=
  sigma * (2 + gamma * 2.5135 + (gamma * 3.6398) ^ 4)

/-- C7 counterexample: at `sigma = 0` — within the declared bound `sigma ≥ 0` —
`lorentzian_fwhm` is constantly 0, so it is not strictly increasing in `gamma`:
the claimed strict inequality fails between `gamma = 0` and `gamma = 1`. -/
theorem fwhm_monotone_counterexample :
    ¬ (lorentzian_fwhm 0 0 < lorentzian_fwhm 0 1) := by
  norm_num [lorentzian_fwhm]

/-- C7 (amended): for `sigma > 0` (rather than the declared bound `sigma ≥ 0`,
at which the expression is constantly 0) `lorentzian_fwhm` is strictly
increasing in `gamma ≥ 0`, and `gaussian_fwhm` is strictly increasing in
`gaussian_sigma ≥ 0`. -/
theorem fwhm_monotone (sigma gamma1 gamma2 gs1 gs2 : ℚ)
    (hs : 0 < sigma) (hg1 : 0 ≤ gamma1) (hg : gamma1 < gamma2)
    (hgs1 : 0 ≤ gs1) (hgs : gs1 < gs2) :
    lorentzian_fwhm sigma gamma1 < lorentzian_fwhm sigma gamma2 ∧
    gaussian_fwhm gs1 < gaussian_fwhm gs2 := by
  constructor
  · unfold lorentzian_fwhm
    have h4 : (gamma1 * 3.6398) ^ 4 ≤ (gamma2 * 3.6398) ^ 4 := by
      have hb : gamma1 * 3.6398 ≤ gamma2 * 3.6398 :=
        mul_le_mul_of_nonneg_right hg.le (by norm_num)
      exact pow_le_pow_left (mul_nonneg hg1 (by norm_num)) hb 4
    have hmid : 2 + gamma1 * 2.5135 + (gamma1 * 3.6398) ^ 4 <
        2 + gamma2 * 2.5135 + (gamma2 * 3.6398) ^ 4 := by nlinarith
    exact mul_lt_mul_of_pos_left hmid hs
  · unfold gaussian_fwhm
    nlinarith

/-- Witness for C7 (amended) at `sigma = 1`, `gamma` from 0 to 1,
`gaussian_sigma` from 0 to 1. -/
theorem fwhm_monotone_witness :
    lorentzian_fwhm 1 0 < lorentzian_fwhm 1 1 ∧ gaussian_fwhm 0 < gaussian_fwhm 1 :=
  fwhm_monotone 1 0 1 0 1 (by norm_num) (by norm_num) (by norm_num) (by norm_num)
    (by norm_num)

/-! Initial-guess heuristics (`guess` methods of the three model adapters).
A parameter hint is a value with optional lower/upper bounds; `guess` receives
the grid as `Option (List ℚ)` (`none` models Python's `x=None` default) and
returns the possibly-updated hints together with the seed parameter set it
produces, `none` when no seed is produced.  The external `guess_from_peak`
helper of lmfit and `np.sqrt` (`rt`) are abstracted as function parameters. -/

structure ParamHint where
  value : ℚ
  lo : Option ℚ
  hi : Option ℚ

/-- Result record of the external `guess_from_peak(Model(doniach), data, x)`. -/
structure PeakGuess where
  sigma : ℚ
  gamma : ℚ
  amplitude : ℚ
  center : ℚ

structure SinglettHints where
  amplitude : ParamHint
  sigma : ParamHint
  gamma : ParamHint
  gaussian_sigma : ParamHint
  center : ParamHint

structure SinglettParams where
  amplitude : ℚ
  sigma : ℚ
  gamma : ℚ
  gaussian_sigma : ℚ
  center : ℚ

structure DublettHints where
  amplitude : ParamHint
  sigma : ParamHint
  gamma : ParamHint
  gaussian_sigma : ParamHint
  center : ParamHint
  soc : ParamHint
  height_ratio : ParamHint
  fct_coster_kronig : ParamHint

structure DublettParams where
  amplitude : ℚ
  sigma : ℚ
  gamma : ℚ
  gaussian_sigma : ℚ
  center : ℚ
  soc : ℚ
  height_ratio : ℚ

structure FermiHints where
  kt : ParamHint
  sigma : ParamHint
  center : ParamHint
  amplitude : ParamHint

structure FermiParams where
  kt : ℚ
  sigma : ℚ
  center : ℚ
  amplitude : ℚ

/-- `kb = 8.6173e-5` (`usrmodel.py` line 92), Boltzmann k in eV/K. -/
def kb : ℚ := 8.6173e-5

/-- The param-hint defaults set by `FermiEdgeModel` at construction
(`usrmodel.py` lines 301-305). -/
def fermiDefaultHints : FermiHints :=
  { kt := { value := 0.02585, lo := some 0, hi := none }
    sigma := { value := 0.2, lo := some 0, hi := none }
    center := { value := 100, lo := some 0, hi := none }
    amplitude := { value := 100, lo := some 0, hi := none } }

/-- `ConvGaussianDoniachSinglett.guess` (`usrmodel.py` lines 219-233). -/
def ConvGaussianDoniachSinglett_guess (guess_from_peak : List ℚ → List ℚ → PeakGuess)
    (gfn : ℚ → ℚ → ℚ → ℚ → ℚ) (rt : ℚ → ℚ) (hints : SinglettHints)
    (data : List ℚ) (x : Option (List ℚ)) : SinglettHints × Option SinglettParams :=
  match x with
  | none => (hints, none)
  | some x =>
    let hints' := { hints with
      sigma := { hints.sigma with hi := some (0.3 * (x.getLastD 0 - x.headD 0)) }
      gaussian_sigma :=
        { hints.gaussian_sigma with hi := some (0.3 * (x.getLastD 0 - x.headD 0)) } }
    let doniach_pars := guess_from_peak data x
    let gaussian_sigma := (doniach_pars.sigma + x.getD 1 0 - x.getD 0 0) / 2
    let doniach_ampl := doniach_pars.amplitude *
      rt ((x.map fun t => gfn t 1 (npMean x) gaussian_sigma).sum) / (2 * rt x.sum)
    (hints', some
      { amplitude := doniach_ampl
        sigma := doniach_pars.sigma
        gamma := doniach_pars.gamma
        gaussian_sigma := gaussian_sigma
        center := doniach_pars.center })

/-- `ConvGaussianDoniachDublett.guess` (`usrmodel.py` lines 274-288). -/
def ConvGaussianDoniachDublett_guess (guess_from_peak : List ℚ → List ℚ → PeakGuess)
    (gfn : ℚ → ℚ → ℚ → ℚ → ℚ) (rt : ℚ → ℚ) (hints : DublettHints)
    (data : List ℚ) (x : Option (List ℚ)) : DublettHints × Option DublettParams :=
  match x with
  | none => (hints, none)
  | some x =>
    let doniach_pars := guess_from_peak data x
    let gaussian_sigma := (doniach_pars.sigma + x.getD 1 0 - x.getD 0 0) / 2
    let doniach_ampl := doniach_pars.amplitude *
      rt ((x.map fun t => gfn t 1 (npMean x) gaussian_sigma).sum) / (5 * rt x.sum)
    let soc_guess := 0.3 * (x.getLastD 0 - x.headD 0)
    (hints, some
      { amplitude := doniach_ampl
        sigma := doniach_pars.sigma / 5
        gamma := doniach_pars.gamma
        gaussian_sigma := gaussian_sigma / 5
        center := doniach_pars.center
        soc := soc_guess
        height_ratio := 1 })

/-- `FermiEdgeModel.guess` (`usrmodel.py` lines 307-315). -/
def FermiEdgeModel_guess (hints : FermiHints) (data : List ℚ)
    (x : Option (List ℚ)) : FermiHints × Option FermiParams :=
  match x with
  | none => (hints, none)
  | some x =>
    let hints' : FermiHints :=
      { center := { value := npMean x, lo := some (pyMin x), hi := some (pyMax x) }
        kt := { value := kb * 300, lo := some 0, hi := some (kb * 1500) }
        amplitude :=
          { value := (pyMax data - pyMin data) / 10
            lo := some 0
            hi := some (pyMax data - pyMin data) }
        sigma :=
          { value := (pyMax x - pyMin x) / x.length
            lo := some 0
            hi := some 2 } }
    (hints', some
      { kt := hints'.kt.value
        sigma := hints'.sigma.value
        center := hints'.center.value
        amplitude := hints'.amplitude.value })

/-- C9: for every model (singlet, doublet, fermi edge) and every data argument,
calling `guess` with `x` absent is a no-op: no seed parameter set is produced
and the model's parameter hints are returned unchanged. -/
theorem guess_without_x_noop
    (guess_from_peak : List ℚ → List ℚ → PeakGuess) (gfn : ℚ → ℚ → ℚ → ℚ → ℚ)
    (rt : ℚ → ℚ) (sHints : SinglettHints) (dHints : DublettHints)
    (fHints : FermiHints) (d1 d2 d3 : List ℚ) :
    ConvGaussianDoniachSinglett_guess guess_from_peak gfn rt sHints d1 none =
      (sHints, none) ∧
    ConvGaussianDoniachDublett_guess guess_from_peak gfn rt dHints d2 none =
      (dHints, none) ∧
    FermiEdgeModel_guess fHints d3 none = (fHints, none) :=
  ⟨rfl, rfl, rfl⟩

/-- C8: for equal-length `data`, `x` with at least two samples, `x` strictly
increasing and `data` not constant, `FermiEdgeModel.guess` returns a seed whose
`center` value (`mean(x)`) lies within `[min x, max x]` and whose `amplitude`
value (`(max data - min data)/10`) lies within `[0, max data - min data]`. -/
theorem fermi_guess_bounds (hints : FermiHints) (data x : List ℚ)
    (hlen : data.length = x.length) (h2 : 2 ≤ x.length)
    (hinc : List.Chain' (· < ·) x)
    (hnc : ∃ a ∈ data, ∃ b ∈ data, a ≠ b) :
    ∃ p, (FermiEdgeModel_guess hints data (some x)).2 = some p ∧
      pyMin x ≤ p.center ∧ p.center ≤ pyMax x ∧
      0 ≤ p.amplitude ∧ p.amplitude ≤ pyMax data - pyMin data := by
  have hxne : x ≠ [] := by
    intro h
    rw [h] at h2
    simp at h2
  have hdne : data ≠ [] := by
    intro h
    rw [h] at hlen
    simp at hlen
    omega
  have hrange : 0 ≤ pyMax data - pyMin data := sub_nonneg.mpr (pyMin_le_pyMax hdne)
  refine ⟨{ kt := kb * 300
            sigma := (pyMax x - pyMin x) / x.length
            center := npMean x
            amplitude := (pyMax data - pyMin data) / 10 }, rfl, ?_, ?_, ?_, ?_⟩
  · exact pyMin_le_npMean hxne
  · exact npMean_le_pyMax hxne
  · exact div_nonneg hrange (by norm_num)
  · linarith

/-- Witness for C8 at `data = [0, 1]`, `x = [0, 1]` with the default hints. -/
theorem fermi_guess_bounds_witness :
    ∃ p, (FermiEdgeModel_guess fermiDefaultHints [0, 1] (some [0, 1])).2 = some p ∧
      pyMin [0, 1] ≤ p.center ∧ p.center ≤ pyMax [0, 1] ∧
      0 ≤ p.amplitude ∧ p.amplitude ≤ pyMax [0, 1] - pyMin [0, 1] :=
  fermi_guess_bounds fermiDefaultHints [0, 1] [0, 1] rfl (by norm_num)
    (by norm_num [List.chain'_cons, List.chain'_singleton])
    ⟨0, by norm_num, 1, by norm_num, by norm_num⟩

end LG4X
